import Mathlib

/-!
Verification development for the duidjs monetary library.

The TypeScript source is shallowly embedded as follows:
* JS `bigint` values become `ℤ`; `bigint` division/remainder truncate toward
  zero, embedded as `Int.tdiv` / `Int.tmod`.
* JS `number` values are IEEE-754 binary64 doubles.  A double's value is a
  rational, so doubles are embedded as `ℚ` together with an explicit rounding
  function `fl : ℚ → ℚ` (round to nearest, ties to even, 53-bit significand)
  applied wherever the source performs an inexact float operation.  The model
  covers the normal range of binary64 (no overflow/underflow/NaN handling);
  every concrete input appearing below lies well inside that range.
* JS strings of decimal digits are embedded either as digit lists (`List ℕ`)
  or as Lean `String`s, as each use site requires.
* Fallible operations return `Except DuidErr α`, with one error constructor
  per distinct JS exception kind that can escape the embedded code.
-/

/-- Executable floor of a rational (kernel-reducible; equal to `⌊q⌋`). -/
def ratFloor (q : ℚ) : ℤ := q.num.fdiv (q.den : ℤ)

/-- Executable ceiling of a rational (kernel-reducible; equal to `⌈q⌉`). -/
def ratCeil (q : ℚ) : ℤ := -ratFloor (-q)

/-- Round a rational to the nearest integer, ties to the even integer.
This is the rounding used both by IEEE-754 binary64 arithmetic and by the
spec's description of exact HALF_EVEN tie handling. -/
def rne (x : ℚ) : ℤ :=
  let f := ratFloor x
  let r := x - (f : ℚ)
  if r < 1/2 then f
  else if r > 1/2 then f + 1
  else if f % 2 = 0 then f else f + 1

/-- Fuel-bounded largest `e` with `2^e ≤ a`, for `1 ≤ a`. -/
def expUp : ℕ → ℚ → ℕ
  | 0, _ => 0
  | f + 1, a => if a < 2 then 0 else expUp f (a / 2) + 1

/-- Fuel-bounded least `k` with `1 ≤ a * 2^k`, for `0 < a < 1`. -/
def expDn : ℕ → ℚ → ℕ
  | 0, _ => 0
  | f + 1, a => if 1 ≤ a then 0 else expDn f (2 * a) + 1

/-- Floor of `log₂ a` for positive `a`, with fuel covering the binary64 range. -/
def floorLog2 (a : ℚ) : ℤ :=
  if 1 ≤ a then (expUp 1100 a : ℤ) else -(expDn 1100 a : ℤ)

/-- Power `2^k` over `ℚ` for an integer exponent `k`. -/
def qpow2 (k : ℤ) : ℚ :=
  if 0 ≤ k then ((2 ^ k.toNat : ℕ) : ℚ) else 1 / ((2 ^ (-k).toNat : ℕ) : ℚ)

/-- Model of IEEE-754 binary64 rounding: the double nearest to the exact
rational `q` (round to nearest, ties to even, 53-bit significand), in the
normal range. -/
def fl (q : ℚ) : ℚ :=
  if q = 0 then 0
  else
    let a := |q|
    let e := floorLog2 a
    let m := rne (a * qpow2 (52 - e))
    (if q < 0 then -1 else 1) * (m : ℚ) * qpow2 (e - 52)

/-- ECMA-262 `Math.round`: nearest integer, ties toward `+∞`. -/
def jsRound (x : ℚ) : ℤ := ratFloor (x + 1/2)

/-- Rounding modes, from the `RoundingMode` enum in `rounding.ts`. -/
inductive RoundingMode where
  | CEILING
  | FLOOR
  | DOWN
  | UP
  | HALF_UP
  | HALF_DOWN
  | HALF_EVEN
  | NONE
deriving DecidableEq, Repr

/-- The initial value of `RoundingConfig._defaultRoundingMode`
(`rounding.ts`, the class field initializer). -/
def initialDefaultRoundingMode : RoundingMode := RoundingMode.HALF_UP

/-- Setter `RoundingConfig.setDefaultRoundingMode`: overwrites the global cell;
the configuration state is the cell's current contents. -/
def setDefaultRoundingMode (_st : RoundingMode) (m : RoundingMode) : RoundingMode := m

/-- The `decimalPlaces == 0` branch of `round` in `rounding.ts`, acting
directly on the parsed value.  Note its HALF_EVEN case is `Math.round`. -/
def roundScaled0 (v : ℚ) (mode : RoundingMode) : ℤ :=
  match mode with
  | .CEILING => ratCeil v
  | .FLOOR => ratFloor v
  | .DOWN => if 0 ≤ v then ratFloor v else ratCeil v
  | .UP => if 0 ≤ v then ratCeil v else ratFloor v
  | .HALF_UP =>
    if |v| - (ratFloor |v| : ℚ) < 1/2 then (if 0 ≤ v then ratFloor v else ratCeil v)
    else (if 0 ≤ v then ratCeil v else ratFloor v)
  | .HALF_DOWN =>
    if |v| - (ratFloor |v| : ℚ) < 1/2 then (if 0 ≤ v then ratFloor v else ratCeil v)
    else if |v| - (ratFloor |v| : ℚ) > 1/2 then (if 0 ≤ v then ratCeil v else ratFloor v)
    else (if 0 ≤ v then ratFloor v else ratCeil v)
  | .HALF_EVEN => jsRound v
  | .NONE => jsRound v

/-- The `decimalPlaces > 0` branch of `round` in `rounding.ts`, acting on the
already float-scaled value.  The subtraction `Math.abs(s) - Math.floor(Math.abs(s))`
is exact in binary64 (Sterbenz), so the fraction is written exactly.  The
`.NONE` case mirrors the switch's `default:` label and is unreachable. -/
def roundScaledPos (s : ℚ) (mode : RoundingMode) : ℤ :=
  match mode with
  | .CEILING => ratCeil s
  | .FLOOR => ratFloor s
  | .DOWN => if 0 ≤ s then ratFloor s else ratCeil s
  | .UP => if 0 ≤ s then ratCeil s else ratFloor s
  | .HALF_UP =>
    if |s| - (ratFloor |s| : ℚ) < 1/2 then (if 0 ≤ s then ratFloor s else ratCeil s)
    else (if 0 ≤ s then ratCeil s else ratFloor s)
  | .HALF_DOWN =>
    if |s| - (ratFloor |s| : ℚ) < 1/2 then (if 0 ≤ s then ratFloor s else ratCeil s)
    else if |s| - (ratFloor |s| : ℚ) > 1/2 then (if 0 ≤ s then ratCeil s else ratFloor s)
    else (if 0 ≤ s then ratFloor s else ratCeil s)
  | .HALF_EVEN =>
    if |s| - (ratFloor |s| : ℚ) = 1/2 then
      let f := ratFloor |s|
      let r := if f % 2 = 0 then f else f + 1
      if s < 0 then -r else r
    else jsRound s
  | .NONE => jsRound s

/-- The `round` function of `rounding.ts` on a finite input.  The argument `v`
is the exact value of the `number | string` argument; `fl v` models parsing
(for a string, `parseFloat`; a number argument is already a double, i.e. a
fixed point of `fl`).  The result denotes the returned decimal string: in the
NONE branch `toString` re-renders the double's value, and in the scaled branch
`toFixed(decimalPlaces)` of `roundedScaledValue / factor` renders exactly
`roundedScaledValue · 10^-decimalPlaces` (the quotient double is within half a
decimal ulp of it). -/
def roundF (v : ℚ) (dp : ℕ) (mode : RoundingMode) : ℚ :=
  let numValue := fl v
  if mode = RoundingMode.NONE then numValue
  else if dp = 0 then (roundScaled0 numValue mode : ℚ)
  else
    let factor := fl ((10 ^ dp : ℕ) : ℚ)
    let scaled := fl (numValue * factor)
    (roundScaledPos scaled mode : ℚ) / ((10 ^ dp : ℕ) : ℚ)

/-- Calling `round` without an explicit mode argument: the default parameter
`RoundingConfig.defaultRoundingMode` is read from the global cell at call
time. -/
def roundWithDefault (st : RoundingMode) (v : ℚ) (dp : ℕ) : ℚ := roundF v dp st

/-- Modelled from the spec: the exact HALF_EVEN rounding the spec describes —
scale by `10^dp`, send exact ties to the neighbor whose last digit is even,
with tie detection on the integer-scaled representation of the decimal
input.  Used only to compare the code's behavior against the spec's words. -/
def roundHalfEvenExact (v : ℚ) (dp : ℕ) : ℚ :=
  (rne (v * ((10 ^ dp : ℕ) : ℚ)) : ℚ) / ((10 ^ dp : ℕ) : ℚ)

/-- Error kinds observable from the embedded code: the `DuidError` subclasses
of `errors.ts`, plus the JS built-in exceptions that can escape `allocate`
(`RangeError` from `BigInt` division by zero, `TypeError` from reading
`.amount` of an out-of-bounds `results[i]`). -/
inductive DuidErr where
  | allocationError
  | currencyMismatchError
  | invalidAmountError
  | invalidCurrencyError
  | invalidOperationError
  | rangeError
  | typeError
deriving DecidableEq, Repr

/-- Currency value object (`currency.ts`): code, name, symbol and
decimal-place count. -/
structure Currency where
  code : String
  name : String
  symbol : String
  decimalPlaces : ℕ
deriving DecidableEq, Repr

/-- Modelled from the spec: the static ISO currency table
(`currencies/iso.ts`) is not among the provided sources; the spec fixes
USD at 2 fractional digits ("e.g. 2 for USD"). -/
def USD : Currency := ⟨"USD", "US Dollar", "$", 2⟩

/-- Modelled from the spec: EUR entry of the missing ISO table
("USD/EUR/GBP = 2"). -/
def EUR : Currency := ⟨"EUR", "Euro", "€", 2⟩

/-- Embeds `Currency.equals`: code equality. -/
def Currency.equals (a b : Currency) : Bool := a.code == b.code

/-- Money value object (`money.ts`): amount in minor units (a `bigint`)
plus its currency. -/
structure Money where
  amount : ℤ
  currency : Currency
deriving DecidableEq, Repr

/-- Embeds `Money.fromInt` on an integer argument (the `Number.isInteger` guard is
expressed by the `ℤ` input type). -/
def Money.fromInt (amount : ℤ) (c : Currency) : Money := ⟨amount, c⟩

/-- Embeds `Money.fromBigInt`. -/
def Money.fromBigInt (amount : ℤ) (c : Currency) : Money := ⟨amount, c⟩

/-- Embeds the `moneyFromMinorUnits` helper of `index.ts`: delegates to `Money.fromInt`. -/
def moneyFromMinorUnits (amount : ℤ) (c : Currency) : Money := Money.fromInt amount c

/-- Embeds the `moneyFromBigInt` helper of `index.ts`: multiplies the argument by
`BigInt(10 ** 4)` before delegating to `Money.fromBigInt`. -/
def moneyFromBigInt (amount : ℤ) (c : Currency) : Money :=
  Money.fromBigInt (amount * (10 ^ 4 : ℤ)) c

/-- Embeds `Money.getAmountInMinorUnits`. -/
def Money.getAmountInMinorUnits (m : Money) : ℤ := m.amount

/-- Embeds `Money.equals`: different currency codes give `false`; equal codes
compare the scaled integer amounts. -/
def Money.equals (a b : Money) : Bool :=
  if a.currency.equals b.currency then decide (a.amount = b.amount) else false

/-- Embeds `Money.assertSameCurrency` (private helper). -/
def Money.assertSameCurrency (a b : Money) : Except DuidErr Unit :=
  if a.currency.equals b.currency then Except.ok () else Except.error DuidErr.currencyMismatchError

/-- Embeds `Money.greaterThan`. -/
def Money.greaterThan (a b : Money) : Except DuidErr Bool :=
  match a.assertSameCurrency b with
  | Except.error e => Except.error e
  | Except.ok _ => Except.ok (decide (b.amount < a.amount))

/-- Embeds `Money.greaterThanOrEqual`. -/
def Money.greaterThanOrEqual (a b : Money) : Except DuidErr Bool :=
  match a.assertSameCurrency b with
  | Except.error e => Except.error e
  | Except.ok _ => Except.ok (decide (b.amount ≤ a.amount))

/-- Embeds `Money.lessThan`. -/
def Money.lessThan (a b : Money) : Except DuidErr Bool :=
  match a.assertSameCurrency b with
  | Except.error e => Except.error e
  | Except.ok _ => Except.ok (decide (a.amount < b.amount))

/-- Embeds `Money.lessThanOrEqual`. -/
def Money.lessThanOrEqual (a b : Money) : Except DuidErr Bool :=
  match a.assertSameCurrency b with
  | Except.error e => Except.error e
  | Except.ok _ => Except.ok (decide (a.amount ≤ b.amount))

/-- The non-integer branch of `Money.multiply` (`money.ts` lines 167-174).
The decimal rendering `multiplier.toString()` of the double is split on the
dot: `neg` is the presence of a leading minus sign, `ip` the integer-part
digits, `frac` the fractional digit block of length `fd`.  `BigInt(integerPart)`
parses the sign with the integer digits only, so `"-0"` parses to `0`,
while `BigInt(fractionalPart)` is always non-negative. -/
def Money.multiplyDec (m : Money) (neg : Bool) (ip frac fd : ℕ) : Money :=
  let scale : ℤ := (10 : ℤ) ^ fd
  let intPart : ℤ := if neg then -(ip : ℤ) else (ip : ℤ)
  let scaledAmount := m.amount * (intPart * scale + (frac : ℤ))
  ⟨scaledAmount.tdiv scale, m.currency⟩

/-- Modelled from the spec: the multiplication the spec describes — the exact
integer numerator `n` with `f = n / 10^fd` (sign applied to the whole decimal
literal), followed by truncating integer division.  Used only to compare the
code's `multiplyDec` against the spec's words. -/
def specMultiplyDec (m : Money) (neg : Bool) (ip frac fd : ℕ) : Money :=
  let n : ℤ := (if neg then -1 else 1) * ((ip : ℤ) * (10 : ℤ) ^ fd + (frac : ℤ))
  ⟨(m.amount * n).tdiv ((10 : ℤ) ^ fd), m.currency⟩

/-- Adds one to each of the first `n` entries of the list (the remainder
fix-up loops of `allocate` and `distribute`). -/
def addOneToFirst : ℕ → List ℤ → List ℤ
  | 0, l => l
  | _ + 1, [] => []
  | n + 1, a :: t => (a + 1) :: addOneToFirst n t

/-- The float `reduce((sum, ratio) => sum + ratio, 0)` over the ratio list:
each partial sum is rounded to a double. -/
def flSum (l : List ℚ) : ℚ := l.foldl (fun s r => fl (s + r)) 0

/-- Embeds `BigInt(Math.round(ratio * 1000))` of `allocate`: the float product is
rounded to a double before `Math.round`. -/
def ratioScaled (r : ℚ) : ℤ := jsRound (fl (r * 1000))

/-- Embeds `Money.allocate` (`money.ts`).  Checks: empty list, negative ratio, zero
float-total — each raising `AllocationError`.  Each share is
`(amount * BigInt(Math.round(ratio*1000))) / BigInt(Math.round(total*1000))`
with truncating bigint division; a zero scaled total makes that division
throw a `RangeError`.  The remainder loop then increments the first
`remainingAmount` results, running off the end of the array (a `TypeError`)
when the remainder exceeds the list length; a non-positive remainder runs
zero iterations. -/
def Money.allocate (m : Money) (ratios : List ℚ) : Except DuidErr (List Money) :=
  if ratios.length = 0 then Except.error DuidErr.allocationError
  else if ratios.any (fun r => decide (r < 0)) then Except.error DuidErr.allocationError
  else
    let total := flSum ratios
    if total = 0 then Except.error DuidErr.allocationError
    else
      let T := jsRound (fl (total * 1000))
      if T = 0 then Except.error DuidErr.rangeError
      else
        let shares := ratios.map (fun r => (m.amount * ratioScaled r).tdiv T)
        let rem := m.amount - shares.sum
        if (ratios.length : ℤ) < rem then Except.error DuidErr.typeError
        else Except.ok ((addOneToFirst rem.toNat shares).map (fun a => ⟨a, m.currency⟩))

/-- Embeds `Money.distribute` (`money.ts`): `n` parts of `amount / BigInt(n)`
(truncating), with the remainder `amount % BigInt(n)` distributed one unit
each to the first parts; a negative remainder runs zero loop iterations.
The `Number.isInteger` guard is expressed by the `ℤ` input type. -/
def Money.distribute (m : Money) (n : ℤ) : Except DuidErr (List Money) :=
  if n ≤ 0 then Except.error DuidErr.invalidOperationError
  else
    let q := m.amount.tdiv n
    let r := m.amount.tmod n
    Except.ok ((addOneToFirst r.toNat (List.replicate n.toNat q)).map (fun a => ⟨a, m.currency⟩))

/-- Value of a most-significant-first digit list. -/
def digitsVal (l : List ℕ) : ℕ := l.foldl (fun a d => 10 * a + d) 0

/-- Embeds `padEnd(decimalPlaces, "0")` followed by `slice(0, decimalPlaces)` on a
fractional digit block. -/
def padTake (dp : ℕ) (fds : List ℕ) : List ℕ :=
  ((fds ++ List.replicate (dp - fds.length) 0).take dp)

/-- The string branch of `Currency.toMinorUnits` (`currency.ts`): split the
literal on the dot, pad or truncate the fractional digits to `decimalPlaces`,
concatenate and parse with `BigInt`.  The literal `-?ip.fds` is given as a
sign flag, integer-part value and fractional digit list; the sign prefixes
the concatenated digit string, so it applies to the whole value (including
the `"-0"` integer-part case). -/
def strToMinorUnits (neg : Bool) (ip : ℕ) (fds : List ℕ) (dp : ℕ) : ℤ :=
  let mag : ℕ := ip * 10 ^ dp + digitsVal (padTake dp fds)
  if neg then -(mag : ℤ) else (mag : ℤ)

/-- The exact rational value denoted by the decimal literal `-?ip.fds`. -/
def litValue (neg : Bool) (ip : ℕ) (fds : List ℕ) : ℚ :=
  (if neg then -1 else 1) * ((ip : ℚ) + (digitsVal fds : ℚ) / ((10 ^ fds.length : ℕ) : ℚ))

/-- ECMA-262 `Number.prototype.toFixed(f)` of a double `x`: sign taken from
`x < 0`, then the magnitude is the `f`-fractional-digit decimal nearest to
`|x|` (ties to the larger), returned as sign flag and scaled integer. -/
def jsToFixed (x : ℚ) (f : ℕ) : Bool × ℕ :=
  (decide (x < 0), (ratFloor (|x| * ((10 ^ f : ℕ) : ℚ) + 1/2)).toNat)

/-- Fixed-width digit list (most significant first) of `v`, width `w`. -/
def natDigitsPadded (v w : ℕ) : List ℕ :=
  (List.range w).map (fun i => v / 10 ^ (w - 1 - i) % 10)

/-- The number branch of `Currency.toMinorUnits`: format the double with
`toFixed(decimalPlaces + 8)` and feed the resulting literal to the string
branch. -/
def numToMinorUnits (q : ℚ) (dp : ℕ) : ℤ :=
  let x := fl q
  let f := dp + 8
  let p := jsToFixed x f
  strToMinorUnits p.1 (p.2 / 10 ^ f) (natDigitsPadded (p.2 % 10 ^ f) f) dp

/-- Modelled from the spec: rounding "to the nearest integer using standard
rounding (half away from zero)".  Used only to compare `toMinorUnits`
against the spec's words. -/
def specHalfAwayFromZero (x : ℚ) : ℤ :=
  (if x < 0 then -1 else 1) * ratFloor (|x| + 1/2)

/-- Digit character for `d < 10`. -/
def digitChar (d : ℕ) : Char := Char.ofNat (48 + d)

/-- Fuel-bounded digit count of a natural number (`1` for `0..9`). -/
def digitLen : ℕ → ℕ → ℕ
  | 0, _ => 1
  | f + 1, n => if n < 10 then 1 else digitLen f (n / 10) + 1

/-- Decimal rendering of a natural number (JS `BigInt.prototype.toString`). -/
def natRepr (n : ℕ) : String :=
  String.mk ((natDigitsPadded n (digitLen n n)).map digitChar)

/-- Embeds `Currency.toMajorUnits` (`currency.ts`): with `decimalPlaces = 0` the
bare integer; otherwise sign, integer part, dot, and the fractional part
left-padded with zeros to `decimalPlaces` digits. -/
def toMajorUnits (amount : ℤ) (dp : ℕ) : String :=
  if dp = 0 then (if amount < 0 then ("-") else ("")) ++ natRepr amount.natAbs
  else
    let factor := 10 ^ dp
    let sign := if amount < 0 then ("-") else ("")
    let absAmount := amount.natAbs
    sign ++ natRepr (absAmount / factor) ++ (".") ++
      String.mk ((natDigitsPadded (absAmount % factor) dp).map digitChar)

/-- Embeds `Money.getAmount`: the major-unit decimal string. -/
def Money.getAmount (m : Money) : String := toMajorUnits m.amount m.currency.decimalPlaces

/-- Decidable equality of `Except` results, for evaluating the embedded
fallible operations on concrete inputs. -/
instance instDecEqExcept {ε α : Type _} [DecidableEq ε] [DecidableEq α] :
    DecidableEq (Except ε α) := fun a b =>
  match a, b with
  | Except.error e, Except.error f =>
    if h : e = f then isTrue (by rw [h]) else
      isFalse (fun hc => h (by injection hc))
  | Except.ok x, Except.ok y =>
    if h : x = y then isTrue (by rw [h]) else
      isFalse (fun hc => h (by injection hc))
  | Except.error _, Except.ok _ => isFalse (fun hc => Except.noConfusion hc)
  | Except.ok _, Except.error _ => isFalse (fun hc => Except.noConfusion hc)

/-- JS `Map.prototype.set`: overwrite in place if the key is present,
otherwise append (insertion order preserved). -/
def mapSet (m : List (String × ℚ)) (k : String) (v : ℚ) : List (String × ℚ) :=
  if m.any (fun p => decide (p.1 = k)) then
    m.map (fun p => if p.1 = k then (k, v) else p)
  else m ++ [(k, v)]

/-- JS `Map.prototype.get` as an option. -/
def mapGet (m : List (String × ℚ)) (k : String) : Option ℚ :=
  (m.find? (fun p => decide (p.1 = k))).map (fun p => p.2)

/-- State of `ExchangeRateProvider` (`conversion/exchange-rate.ts`): base currency
code and the rate table (a JS `Map`, embedded as an insertion-ordered
association list).  Rates are doubles, embedded as `ℚ`; the timestamp is
irrelevant to the claims and omitted. -/
structure ExchangeRateProvider where
  baseCurrency : String
  rates : List (String × ℚ)
deriving DecidableEq, Repr

/-- The `ExchangeRateProvider` constructor: uppercase the base code and all
rate keys (later duplicates overwriting earlier ones, as in `new Map`), then
set the base currency's rate to `1.0`.  The input rates are stored without
any validation. -/
def ExchangeRateProvider.construct (base : String) (rates : List (String × ℚ)) :
    ExchangeRateProvider :=
  let b := base.toUpper
  let m := rates.foldl (fun acc p => mapSet acc p.1.toUpper p.2) []
  ⟨b, mapSet m b 1⟩

/-- Embeds `updateRate`: rejects a non-positive rate with `InvalidAmountError`
(the NaN/infinity guards have no counterpart in the `ℚ` embedding),
otherwise stores the uppercased entry. -/
def ExchangeRateProvider.updateRate (p : ExchangeRateProvider) (c : String) (r : ℚ) :
    Except DuidErr ExchangeRateProvider :=
  if r ≤ 0 then Except.error DuidErr.invalidAmountError
  else Except.ok ⟨p.baseCurrency, mapSet p.rates c.toUpper r⟩

/-- Embeds `updateRates`: applies `updateRate` entry by entry; the first invalid
rate throws, leaving the updates already applied in place.  Returns the
state the provider holds afterwards together with a thrown flag. -/
def ExchangeRateProvider.updateRates (p : ExchangeRateProvider) :
    List (String × ℚ) → ExchangeRateProvider × Bool
  | [] => (p, false)
  | (c, r) :: t =>
    match p.updateRate c r with
    | Except.error _ => (p, true)
    | Except.ok p2 => p2.updateRates t

/-- Embeds `withBaseCurrency`: unknown code raises `InvalidCurrencyError`;
otherwise every non-base entry is divided by the old rate of the new base
(float division embedded as exact `ℚ` division) and the constructor is
re-run on the result. -/
def ExchangeRateProvider.withBaseCurrency (p : ExchangeRateProvider) (nb : String) :
    Except DuidErr ExchangeRateProvider :=
  let code := nb.toUpper
  match mapGet p.rates code with
  | none => Except.error DuidErr.invalidCurrencyError
  | some baseRate =>
    Except.ok (ExchangeRateProvider.construct code
      ((p.rates.filter (fun q => decide (q.1 ≠ code))).map (fun q => (q.1, q.2 / baseRate))))

/-- The provider states reachable per the claim: any construction, followed
by any sequence of (successful or throwing) `updateRate`, `updateRates` and
`withBaseCurrency` calls, where the constructor input rates are all
strictly positive. -/
inductive ReachedERP : ExchangeRateProvider → Prop where
  | construct (base : String) (rates : List (String × ℚ))
      (h : ∀ x ∈ rates, 0 < x.2) :
      ReachedERP (ExchangeRateProvider.construct base rates)
  | update (p : ExchangeRateProvider) (c : String) (r : ℚ) (p2 : ExchangeRateProvider) :
      ReachedERP p → p.updateRate c r = Except.ok p2 → ReachedERP p2
  | updates (p : ExchangeRateProvider) (l : List (String × ℚ)) :
      ReachedERP p → ReachedERP (p.updateRates l).1
  | rebase (p : ExchangeRateProvider) (nb : String) (p2 : ExchangeRateProvider) :
      ReachedERP p → p.withBaseCurrency nb = Except.ok p2 → ReachedERP p2

theorem ratFloor_eq (q : ℚ) : ratFloor q = ⌊q⌋ := by
  rw [ratFloor, Int.fdiv_eq_ediv _ (Int.ofNat_nonneg q.den)]
  conv_rhs => rw [← Rat.num_div_den q]
  rw [Rat.floor_intCast_div_natCast]

theorem ratCeil_eq (q : ℚ) : ratCeil q = ⌈q⌉ := by
  rw [ratCeil, ratFloor_eq, Int.floor_neg, neg_neg]

theorem ratFloor_intCast (n : ℤ) : ratFloor ((n : ℚ)) = n := by
  rw [ratFloor_eq, Int.floor_intCast]

theorem ratCeil_intCast (n : ℤ) : ratCeil ((n : ℚ)) = n := by
  rw [ratCeil_eq, Int.ceil_intCast]

theorem jsRound_intCast (n : ℤ) : jsRound ((n : ℚ)) = n := by
  rw [jsRound, ratFloor_eq, Int.floor_int_add]
  norm_num

/-- Every rounding branch fixes an integer-valued scaled argument. -/
theorem roundScaledPos_intCast (n : ℤ) (mode : RoundingMode) :
    roundScaledPos ((n : ℚ)) mode = n := by
  have habs : |((n : ℚ))| = ((|n| : ℤ) : ℚ) := Int.cast_abs.symm
  have hfr : |((n : ℚ))| - ((ratFloor |((n : ℚ))| : ℤ) : ℚ) = 0 := by
    rw [habs, ratFloor_intCast, sub_self]
  cases mode <;>
    simp only [roundScaledPos, hfr, ratFloor_intCast, ratCeil_intCast, jsRound_intCast] <;>
    norm_num

/-- The zero-decimal-places branch likewise fixes integers. -/
theorem roundScaled0_intCast (n : ℤ) (mode : RoundingMode) :
    roundScaled0 ((n : ℚ)) mode = n := by
  have habs : |((n : ℚ))| = ((|n| : ℤ) : ℚ) := Int.cast_abs.symm
  have hfr : |((n : ℚ))| - ((ratFloor |((n : ℚ))| : ℤ) : ℚ) = 0 := by
    rw [habs, ratFloor_intCast, sub_self]
  cases mode <;>
    simp only [roundScaled0, hfr, ratFloor_intCast, ratCeil_intCast, jsRound_intCast] <;>
    norm_num

/-- C2 (counterexample): tie detection in HALF_EVEN is not exact.  The
decimal 1.015 is an exact tie at two places (101.5), whose even neighbor is
102; but the code's float-scaled value `fl (fl 1.015 * 100)` falls below the
tie, so `round(1.015, 2, HALF_EVEN)` returns 1.01 where the spec's exact
tie handling gives 1.02. -/
theorem half_even_tie_detection_inexact :
    roundF (1015/1000) 2 RoundingMode.HALF_EVEN = 101/100 ∧
    roundHalfEvenExact (1015/1000) 2 = 102/100 ∧
    (101/100 : ℚ) ≠ 102/100 := by
  refine ⟨by with_unfolding_all decide, by with_unfolding_all decide, by with_unfolding_all decide⟩

/-- C2 (amended): in HALF_EVEN mode, ties detected on the float-scaled value
go to the neighbor whose last digit is even, and all three quoted examples
hold: 1.985 → 1.98, 1.975 → 1.98, 1.965 → 1.96 at two places; but tie
detection operates on binary doubles, not exactly. -/
theorem half_even_examples :
    roundF (1985/1000) 2 RoundingMode.HALF_EVEN = 198/100 ∧
    roundF (1975/1000) 2 RoundingMode.HALF_EVEN = 198/100 ∧
    roundF (1965/1000) 2 RoundingMode.HALF_EVEN = 196/100 := by
  refine ⟨by with_unfolding_all decide, by with_unfolding_all decide, by with_unfolding_all decide⟩

/-- C3 (counterexample): the global default rounding mode starts as HALF_UP,
not NONE. -/
theorem default_rounding_mode_not_none :
    initialDefaultRoundingMode = RoundingMode.HALF_UP ∧
    RoundingMode.HALF_UP ≠ RoundingMode.NONE := by
  exact ⟨rfl, by decide⟩

/-- C3 (amended): the global default rounding mode has initial value HALF_UP,
and `round` without an explicit mode uses whatever the cell currently holds:
on a fresh process `round(1.985, 2)` behaves as HALF_UP (giving 1.99), and
after `setDefaultRoundingMode(FLOOR)` the same call gives 1.98. -/
theorem default_rounding_mode_behavior :
    initialDefaultRoundingMode = RoundingMode.HALF_UP ∧
    roundWithDefault initialDefaultRoundingMode (1985/1000) 2 = 199/100 ∧
    roundWithDefault (setDefaultRoundingMode initialDefaultRoundingMode RoundingMode.FLOOR)
      (1985/1000) 2 = 198/100 := by
  refine ⟨rfl, by with_unfolding_all decide, by with_unfolding_all decide⟩

/-- C4 (code bug): `multiply` parses the sign of a negative decimal
multiplier only into the integer part, so the fractional digits are added
with the wrong sign.  For amount 10 and multiplier -1.5 (integer part "-1",
fractional part "5", one digit), the code computes
`10 * (BigInt("-1") * 10n + BigInt("5")) / 10n = 10 * (-5) / 10 = -5`,
while the exact-fraction semantics the spec states gives
`(10 * (-15)) / 10 = -15`. -/
theorem multiply_negative_decimal_sign_bug :
    (Money.multiplyDec ⟨10, USD⟩ true 1 5 1).amount = -5 ∧
    (specMultiplyDec ⟨10, USD⟩ true 1 5 1).amount = -15 ∧
    ((-5 : ℤ) ≠ -15) := by
  refine ⟨by with_unfolding_all decide, by with_unfolding_all decide, by decide⟩

/-- C9 (counterexample): rounding is not idempotent.  0.07 has two
fractional digits, but `fl 0.07 * 100` rounds up to a double strictly above
7, so `round(0.07, 2, CEILING)` returns 0.08, not 0.07. -/
theorem round_not_idempotent_ceiling :
    roundF (7/100) 2 RoundingMode.CEILING = 8/100 ∧
    ((7 : ℚ)/100 * 100).den = 1 ∧
    (8/100 : ℚ) ≠ 7/100 := by
  refine ⟨by with_unfolding_all decide, by with_unfolding_all decide, by with_unfolding_all decide⟩

/-- C1 (counterexample): allocation does not conserve negative amounts.
For amount -1 and ratios [1, 1] both truncating shares are 0 and the
remainder loop runs zero times, so the parts sum to 0 ≠ -1. -/
theorem allocate_negative_not_conserved :
    ((Money.mk (-1) USD).allocate [1, 1]).toOption.map
      (fun l => (l.map Money.amount).sum) = some 0 ∧
    (Money.mk (-1) USD).amount = -1 ∧ (0 : ℤ) ≠ -1 := by
  refine ⟨by with_unfolding_all decide, rfl, by decide⟩

/-- C6 (counterexample): a non-empty, non-negative, not-all-zero ratio list
can still make `allocate` throw — with the single ratio `1/2048` (an exact
double) the scaled total `Math.round(total * 1000)` is 0, and the bigint
share division throws a `RangeError`, not an `AllocationError` and not a
normal return. -/
theorem allocate_spurious_range_error :
    (Money.mk 5 USD).allocate [1/2048] = Except.error DuidErr.rangeError ∧
    (0 : ℚ) ≤ 1/2048 ∧ (1/2048 : ℚ) ≠ 0 ∧ DuidErr.rangeError ≠ DuidErr.allocationError := by
  refine ⟨by with_unfolding_all decide, by with_unfolding_all decide,
    by with_unfolding_all decide, by decide⟩

/-- C5 (counterexample): the major-to-minor codec truncates instead of
rounding half away from zero: the string "1.999" at scale 2 yields 199,
while the spec's half-away-from-zero rounding of 1.999 · 10² gives 200. -/
theorem to_minor_units_not_rounded :
    strToMinorUnits false 1 [9, 9, 9] 2 = 199 ∧
    specHalfAwayFromZero (litValue false 1 [9, 9, 9] * ((10 ^ 2 : ℕ) : ℚ)) = 200 ∧
    (199 : ℤ) ≠ 200 := by
  refine ⟨by with_unfolding_all decide, by with_unfolding_all decide, by decide⟩

/-- C10: `moneyFromBigInt` scales its minor-unit argument by `10^4` before
storing, so the stored amount is `10000 * x`, the result differs from
`moneyFromMinorUnits` at every nonzero `x`, `moneyFromBigInt(1099n, "USD")`
renders as "109900.00", and `Money.fromInt` / `Money.fromBigInt` apply no
such scaling. -/
theorem money_from_big_int_scaling :
    (∀ (x : ℤ) (c : Currency), (moneyFromBigInt x c).getAmountInMinorUnits = 10000 * x) ∧
    (∀ (x : ℤ) (c : Currency), x ≠ 0 →
      (moneyFromBigInt x c).equals (moneyFromMinorUnits x c) = false) ∧
    (moneyFromBigInt 1099 USD).getAmount = "109900.00" ∧
    (∀ (y : ℤ) (c : Currency),
      (Money.fromInt y c).amount = y ∧ (Money.fromBigInt y c).amount = y) := by
  refine ⟨?_, ?_, by with_unfolding_all decide, fun y c => ⟨rfl, rfl⟩⟩
  · intro x c
    simp only [moneyFromBigInt, Money.fromBigInt, Money.getAmountInMinorUnits]
    ring
  · intro x c hx
    simp only [moneyFromBigInt, Money.fromBigInt, moneyFromMinorUnits, Money.fromInt,
      Money.equals, Currency.equals, beq_self_eq_true, if_true]
    rw [decide_eq_false]
    intro h
    apply hx
    omega

/-- C10 (witness): the nonzero-disequality part at `x = 3`. -/
theorem money_from_big_int_scaling_witness :
    (3 : ℤ) ≠ 0 ∧ (moneyFromBigInt 3 USD).equals (moneyFromMinorUnits 3 USD) = false :=
  ⟨by decide, money_from_big_int_scaling.2.1 3 USD (by decide)⟩

/-- C8: `equals` on different currency codes returns `false` without
throwing, while the four order comparisons throw `CurrencyMismatchError`;
on equal codes all five compare the scaled integer amounts exactly. -/
theorem comparison_currency_semantics : ∀ a b : Money,
    (a.currency.code ≠ b.currency.code →
      a.equals b = false ∧
      a.lessThan b = Except.error DuidErr.currencyMismatchError ∧
      a.greaterThan b = Except.error DuidErr.currencyMismatchError ∧
      a.lessThanOrEqual b = Except.error DuidErr.currencyMismatchError ∧
      a.greaterThanOrEqual b = Except.error DuidErr.currencyMismatchError) ∧
    (a.currency.code = b.currency.code →
      (a.equals b = true ↔ a.amount = b.amount) ∧
      a.lessThan b = Except.ok (decide (a.amount < b.amount)) ∧
      a.greaterThan b = Except.ok (decide (b.amount < a.amount)) ∧
      a.lessThanOrEqual b = Except.ok (decide (a.amount ≤ b.amount)) ∧
      a.greaterThanOrEqual b = Except.ok (decide (b.amount ≤ a.amount))) := by
  intro a b
  constructor
  · intro hne
    have hb : a.currency.equals b.currency = false := by
      simp [Currency.equals, hne]
    simp [Money.equals, Money.lessThan, Money.greaterThan, Money.lessThanOrEqual,
      Money.greaterThanOrEqual, Money.assertSameCurrency, hb]
  · intro heq
    have hb : a.currency.equals b.currency = true := by
      simp [Currency.equals, heq]
    simp [Money.equals, Money.lessThan, Money.greaterThan, Money.lessThanOrEqual,
      Money.greaterThanOrEqual, Money.assertSameCurrency, hb]

/-- C8 (witness): concrete instances of both sides — mismatched USD/EUR
values, and matched USD values. -/
theorem comparison_currency_semantics_witness :
    ((Money.mk 1 USD).equals (Money.mk 2 EUR) = false ∧
      (Money.mk 1 USD).lessThan (Money.mk 2 EUR) = Except.error DuidErr.currencyMismatchError ∧
      (Money.mk 1 USD).greaterThan (Money.mk 2 EUR) = Except.error DuidErr.currencyMismatchError ∧
      (Money.mk 1 USD).lessThanOrEqual (Money.mk 2 EUR) =
        Except.error DuidErr.currencyMismatchError ∧
      (Money.mk 1 USD).greaterThanOrEqual (Money.mk 2 EUR) =
        Except.error DuidErr.currencyMismatchError) ∧
    ((Money.mk 1 USD).equals (Money.mk 2 USD) = true ↔ (1 : ℤ) = 2) :=
  ⟨(comparison_currency_semantics (Money.mk 1 USD) (Money.mk 2 EUR)).1 (by decide),
    ((comparison_currency_semantics (Money.mk 1 USD) (Money.mk 2 USD)).2 rfl).1⟩

/-- C9 (amended): rounding is idempotent on values whose parse and float
scaling are exact — for every mode and `dp`, if `q` is an exact double
(`fl q = q`), the scaled product computes exactly, and `q` has at most `dp`
fractional digits (integer scaled value), then `round` returns `q`
unchanged.  The general claim fails because the float scaling need not be
exact (see the CEILING counterexample on 0.07). -/
theorem round_idempotent_on_exact (mode : RoundingMode) (dp : ℕ) (q : ℚ)
    (hq : fl q = q)
    (hs : fl (q * fl ((10 ^ dp : ℕ) : ℚ)) = q * ((10 ^ dp : ℕ) : ℚ))
    (hden : (q * ((10 ^ dp : ℕ) : ℚ)).den = 1) :
    roundF q dp mode = q := by
  by_cases hmode : mode = RoundingMode.NONE
  · subst hmode
    simp [roundF, hq]
  · by_cases hdp : dp = 0
    · subst hdp
      have hq1 : q.den = 1 := by simpa using hden
      have hn : ((q.num : ℤ) : ℚ) = q := (Rat.den_eq_one_iff q).mp hq1
      rw [roundF]
      simp only [hmode, if_false, if_true, hq]
      rw [← hn, roundScaled0_intCast]
    · have hn : (((q * ((10 ^ dp : ℕ) : ℚ)).num : ℤ) : ℚ) = q * ((10 ^ dp : ℕ) : ℚ) :=
        (Rat.den_eq_one_iff _).mp hden
      have h10 : ((10 ^ dp : ℕ) : ℚ) ≠ 0 := by positivity
      rw [roundF]
      simp only [if_neg hmode, if_neg hdp]
      rw [hq, hs, ← hn, roundScaledPos_intCast, hn]
      field_simp

/-- C9 (witness): the hypotheses hold at `q = 1/4`, `dp = 2`, mode CEILING,
and rounding returns 1/4 unchanged. -/
theorem round_idempotent_on_exact_witness :
    fl (1/4) = 1/4 ∧
    fl ((1/4 : ℚ) * fl ((10 ^ 2 : ℕ) : ℚ)) = (1/4 : ℚ) * ((10 ^ 2 : ℕ) : ℚ) ∧
    ((1/4 : ℚ) * ((10 ^ 2 : ℕ) : ℚ)).den = 1 ∧
    roundF (1/4) 2 RoundingMode.CEILING = 1/4 :=
  ⟨by with_unfolding_all decide, by with_unfolding_all decide, by with_unfolding_all decide,
    round_idempotent_on_exact RoundingMode.CEILING 2 (1/4) (by with_unfolding_all decide)
      (by with_unfolding_all decide) (by with_unfolding_all decide)⟩

/-- Folding digits from an arbitrary accumulator. -/
theorem digitsVal_from (l : List ℕ) (i : ℕ) :
    l.foldl (fun a d => 10 * a + d) i = i * 10 ^ l.length + digitsVal l := by
  induction l generalizing i with
  | nil => simp [digitsVal]
  | cons d t ih =>
    simp only [List.foldl_cons, List.length_cons, digitsVal]
    rw [ih (10 * i + d), ih (10 * 0 + d)]
    ring

/-- Value of a digit list with its head split off. -/
theorem digitsVal_cons (d : ℕ) (t : List ℕ) :
    digitsVal (d :: t) = d * 10 ^ t.length + digitsVal t := by
  rw [digitsVal, List.foldl_cons, digitsVal_from]
  ring_nf

/-- Value of a concatenated digit list. -/
theorem digitsVal_append (a b : List ℕ) :
    digitsVal (a ++ b) = digitsVal a * 10 ^ b.length + digitsVal b := by
  rw [digitsVal, List.foldl_append, digitsVal_from]
  rfl

/-- A list of decimal digits denotes less than `10^length`. -/
theorem digitsVal_lt (l : List ℕ) (h : ∀ d ∈ l, d < 10) :
    digitsVal l < 10 ^ l.length := by
  induction l with
  | nil => simp [digitsVal]
  | cons d t ih =>
    rw [digitsVal_cons]
    have hd : d ≤ 9 := Nat.lt_succ_iff.mp (h d (List.mem_cons_self d t))
    have ht : digitsVal t < 10 ^ t.length := ih (fun x hx => h x (List.mem_cons_of_mem d hx))
    have h9 : d * 10 ^ t.length ≤ 9 * 10 ^ t.length := Nat.mul_le_mul_right (10 ^ t.length) hd
    have hpow : 10 ^ (d :: t).length = 10 * 10 ^ t.length := by
      rw [List.length_cons, pow_succ]
      ring
    omega

/-- Trailing zeros denote zero. -/
theorem digitsVal_replicate_zero (n : ℕ) : digitsVal (List.replicate n 0) = 0 := by
  induction n with
  | zero => simp [digitsVal]
  | succ k ih => rw [List.replicate_succ, digitsVal_cons, ih]; ring

/-- Padding or truncating a digit block to `dp` digits scales its value by
`10^dp` and divides (flooring) by `10^length`. -/
theorem digitsVal_padTake (dp : ℕ) (fds : List ℕ) (h : ∀ d ∈ fds, d < 10) :
    digitsVal (padTake dp fds) = digitsVal fds * 10 ^ dp / 10 ^ fds.length := by
  by_cases hle : fds.length ≤ dp
  · have hlen : (fds ++ List.replicate (dp - fds.length) 0).length = dp := by
      simp only [List.length_append, List.length_replicate]
      omega
    rw [padTake, List.take_of_length_le (le_of_eq hlen), digitsVal_append,
      digitsVal_replicate_zero, List.length_replicate, Nat.add_zero]
    have hsplit : 10 ^ dp = 10 ^ fds.length * 10 ^ (dp - fds.length) := by
      rw [← pow_add]
      congr 1
      omega
    rw [hsplit, ← Nat.mul_assoc]
    have hcomm : digitsVal fds * 10 ^ fds.length * 10 ^ (dp - fds.length) =
        digitsVal fds * 10 ^ (dp - fds.length) * 10 ^ fds.length := by ring
    rw [hcomm, Nat.mul_div_cancel _ (Nat.pos_pow_of_pos fds.length (by norm_num))]
  · have hdp : dp - fds.length = 0 := by omega
    rw [padTake, hdp, List.replicate_zero, List.append_nil]
    have hsplit := (List.take_append_drop dp fds).symm
    have hvt : digitsVal fds =
        digitsVal (fds.take dp) * 10 ^ (fds.drop dp).length + digitsVal (fds.drop dp) := by
      conv_lhs => rw [hsplit]
      exact digitsVal_append _ _
    have hlt : digitsVal (fds.drop dp) < 10 ^ (fds.drop dp).length :=
      digitsVal_lt _ (fun x hx => h x (List.mem_of_mem_drop hx))
    have hL : (fds.drop dp).length + dp = fds.length := by
      rw [List.length_drop]
      omega
    have hkey : digitsVal fds * 10 ^ dp =
        digitsVal (fds.drop dp) * 10 ^ dp + 10 ^ fds.length * digitsVal (fds.take dp) := by
      rw [hvt, ← hL]
      ring
    rw [hkey, Nat.add_mul_div_left _ _ (Nat.pos_pow_of_pos fds.length (by norm_num)),
      Nat.div_eq_of_lt, Nat.zero_add]
    calc digitsVal (fds.drop dp) * 10 ^ dp
        < 10 ^ (fds.drop dp).length * 10 ^ dp := by
          have hp : (0 : ℕ) < 10 ^ dp := Nat.pos_pow_of_pos dp (by norm_num)
          exact Nat.mul_lt_mul_of_lt_of_le hlt (le_refl _) hp
      _ = 10 ^ fds.length := by rw [← pow_add, hL]

/-- C5 (amended): the major-to-minor codec truncates.  For every decimal
string literal the scaled integer is the sign times the floor of
`|value| * 10^scale` — fractional digits beyond the scale are dropped, not
rounded ("1.999" at scale 2 gives 199); a native float is first rendered
with `toFixed(scale + 8)` and then truncated the same way, as the concrete
float conjunct shows. -/
theorem to_minor_units_truncation :
    (∀ (neg : Bool) (ip : ℕ) (fds : List ℕ) (dp : ℕ), (∀ d ∈ fds, d < 10) →
      strToMinorUnits neg ip fds dp =
        (if neg then -1 else 1) * ⌊|litValue neg ip fds| * ((10 ^ dp : ℕ) : ℚ)⌋) ∧
    numToMinorUnits (1999/1000) 2 = 199 := by
  constructor
  · intro neg ip fds dp h
    have hx : (0 : ℚ) ≤ (ip : ℚ) + (digitsVal fds : ℚ) / ((10 ^ fds.length : ℕ) : ℚ) := by
      positivity
    have habs : |litValue neg ip fds| =
        (ip : ℚ) + (digitsVal fds : ℚ) / ((10 ^ fds.length : ℕ) : ℚ) := by
      cases neg
      · rw [litValue, show (if (false : Bool) = true then (-1 : ℚ) else 1) = 1 from rfl,
          one_mul]
        exact abs_of_nonneg hx
      · rw [litValue, show (if (true : Bool) = true then (-1 : ℚ) else 1) = -1 from rfl,
          neg_one_mul, abs_neg]
        exact abs_of_nonneg hx
    have hfl : ⌊((ip : ℚ) + (digitsVal fds : ℚ) / ((10 ^ fds.length : ℕ) : ℚ)) *
        ((10 ^ dp : ℕ) : ℚ)⌋ = ((ip * 10 ^ dp + digitsVal (padTake dp fds) : ℕ) : ℤ) := by
      have hexp : ((ip : ℚ) + (digitsVal fds : ℚ) / ((10 ^ fds.length : ℕ) : ℚ)) *
          ((10 ^ dp : ℕ) : ℚ) =
          (((ip * 10 ^ dp : ℕ) : ℤ) : ℚ) +
            ((digitsVal fds * 10 ^ dp : ℕ) : ℚ) / ((10 ^ fds.length : ℕ) : ℚ) := by
        have hne : ((10 ^ fds.length : ℕ) : ℚ) ≠ 0 := by positivity
        push_cast
        field_simp
        ring
      rw [hexp, Int.floor_int_add, Rat.floor_natCast_div_natCast,
        digitsVal_padTake dp fds h]
      push_cast
      ring
    rw [habs, hfl, strToMinorUnits]
    cases neg
    · norm_num
    · norm_num
  · with_unfolding_all decide

/-- C5 (witness): the truncation identity at the literal "1.999", scale 2. -/
theorem to_minor_units_truncation_witness :
    (∀ d ∈ [9, 9, 9], d < 10) ∧
    strToMinorUnits false 1 [9, 9, 9] 2 =
      (if false then -1 else 1) * ⌊|litValue false 1 [9, 9, 9]| * ((10 ^ 2 : ℕ) : ℚ)⌋ :=
  ⟨by decide, to_minor_units_truncation.1 false 1 [9, 9, 9] 2 (by decide)⟩

/-- Nearest-even rounding preserves non-negativity. -/
theorem rne_nonneg (x : ℚ) (h : 0 ≤ x) : 0 ≤ rne x := by
  rw [rne]
  have hf : (0 : ℤ) ≤ ratFloor x := by
    rw [ratFloor_eq]
    exact Int.floor_nonneg.mpr h
  split_ifs <;> omega

/-- Powers of two are non-negative. -/
theorem qpow2_nonneg (k : ℤ) : 0 ≤ qpow2 k := by
  rw [qpow2]
  split_ifs <;> positivity

/-- Double rounding preserves non-negativity. -/
theorem fl_nonneg (q : ℚ) (h : 0 ≤ q) : 0 ≤ fl q := by
  rw [fl]
  split_ifs with h0 hneg
  · exact le_refl 0
  · exact absurd hneg (not_lt.mpr h)
  · have h1 : (0 : ℚ) ≤ |q| * qpow2 (52 - floorLog2 |q|) :=
      mul_nonneg (abs_nonneg q) (qpow2_nonneg _)
    have h2 : (0 : ℤ) ≤ rne (|q| * qpow2 (52 - floorLog2 |q|)) := rne_nonneg _ h1
    have h3 : (0 : ℚ) ≤ (rne (|q| * qpow2 (52 - floorLog2 |q|)) : ℚ) := Int.cast_nonneg.mpr h2
    calc (0 : ℚ) ≤ 1 * (rne (|q| * qpow2 (52 - floorLog2 |q|)) : ℚ) *
          qpow2 (floorLog2 |q| - 52) := by
          rw [one_mul]
          exact mul_nonneg h3 (qpow2_nonneg _)
      _ = _ := rfl

/-- Double rounding fixes zero. -/
theorem fl_zero : fl 0 = 0 := by rw [fl]; simp

/-- `Math.round` fixes zero. -/
theorem jsRound_zero : jsRound 0 = 0 := by
  rw [jsRound, ratFloor_eq]
  norm_num

/-- `Math.round` preserves non-negativity. -/
theorem jsRound_nonneg (x : ℚ) (h : 0 ≤ x) : 0 ≤ jsRound x := by
  rw [jsRound, ratFloor_eq]
  exact Int.floor_nonneg.mpr (by linarith)

/-- A non-negative ratio scales to a non-negative integer. -/
theorem ratioScaled_nonneg (r : ℚ) (h : 0 ≤ r) : 0 ≤ ratioScaled r :=
  jsRound_nonneg _ (fl_nonneg _ (by positivity))

/-- The remainder fix-up adds `min k length` to the list sum. -/
theorem addOneToFirst_sum (k : ℕ) (l : List ℤ) :
    (addOneToFirst k l).sum = l.sum + min k l.length := by
  induction l generalizing k with
  | nil => cases k <;> simp [addOneToFirst]
  | cons a t ih =>
    cases k with
    | zero => simp [addOneToFirst]
    | succ n =>
      rw [addOneToFirst, List.sum_cons, ih n, List.sum_cons, List.length_cons]
      have hmin : min (n + 1) (t.length + 1) = min n t.length + 1 := by omega
      rw [hmin]
      push_cast
      ring

/-- Lower bound: the truncated shares undershoot the exact total. -/
theorem sum_map_tdiv_le (R : List ℤ) (a T : ℤ) (ha : 0 ≤ a) (hT : 0 < T)
    (hR : ∀ x ∈ R, 0 ≤ x) :
    T * (R.map (fun x => (a * x).tdiv T)).sum ≤ a * R.sum := by
  induction R with
  | nil => simp
  | cons x t ih =>
    simp only [List.map_cons, List.sum_cons, mul_add]
    have hx : 0 ≤ x := hR x (List.mem_cons_self x t)
    have h1 : T * ((a * x).tdiv T) ≤ a * x := by
      rw [Int.tdiv_eq_ediv (mul_nonneg ha hx) hT.le]
      have h2 := Int.ediv_mul_le (a * x) hT.ne'
      linarith [h2]
    have h3 := ih (fun y hy => hR y (List.mem_cons_of_mem x hy))
    linarith

/-- Upper bound (weak): each truncated share loses at most one unit. -/
theorem sum_map_tdiv_le_len (R : List ℤ) (a T : ℤ) (ha : 0 ≤ a) (hT : 0 < T)
    (hR : ∀ x ∈ R, 0 ≤ x) :
    a * R.sum ≤ T * ((R.map (fun x => (a * x).tdiv T)).sum + R.length) := by
  induction R with
  | nil => simp
  | cons x t ih =>
    simp only [List.map_cons, List.sum_cons, List.length_cons, mul_add]
    have hx : 0 ≤ x := hR x (List.mem_cons_self x t)
    have h1 : a * x < T * ((a * x).tdiv T + 1) := by
      rw [Int.tdiv_eq_ediv (mul_nonneg ha hx) hT.le]
      have h2 := Int.lt_ediv_add_one_mul_self (a * x) hT
      linarith
    have h3 := ih (fun y hy => hR y (List.mem_cons_of_mem x hy))
    have hexp : T * ((a * x).tdiv T + ((t.map (fun x => (a * x).tdiv T)).sum) +
        ((t.length : ℤ) + 1)) =
        T * ((a * x).tdiv T + 1) + T * ((t.map (fun x => (a * x).tdiv T)).sum + t.length) := by
      ring
    push_cast
    push_cast at h3
    nlinarith [h1, h3]

/-- Upper bound (strict, non-empty list): the shares lose strictly less
than one unit per entry. -/
theorem sum_map_tdiv_lt (R : List ℤ) (a T : ℤ) (ha : 0 ≤ a) (hT : 0 < T)
    (hR : ∀ x ∈ R, 0 ≤ x) (hne : R ≠ []) :
    a * R.sum < T * ((R.map (fun x => (a * x).tdiv T)).sum + R.length) := by
  cases R with
  | nil => exact absurd rfl hne
  | cons x t =>
    simp only [List.map_cons, List.sum_cons, List.length_cons, mul_add]
    have hx : 0 ≤ x := hR x (List.mem_cons_self x t)
    have h1 : a * x < T * ((a * x).tdiv T + 1) := by
      rw [Int.tdiv_eq_ediv (mul_nonneg ha hx) hT.le]
      have h2 := Int.lt_ediv_add_one_mul_self (a * x) hT
      linarith
    have h3 := sum_map_tdiv_le_len t a T ha hT (fun y hy => hR y (List.mem_cons_of_mem x hy))
    push_cast
    push_cast at h3
    nlinarith [h1, h3]

/-- C1 (amended): conservation holds for non-negative amounts.  If the
amount is non-negative and the ratio list is valid (non-empty, no negative
entry) with its thousandths-scaled entries summing exactly to the positive
thousandths-scaled total (as holds e.g. for integer ratios), then `allocate`
returns normally and its parts sum to the amount; and for every positive
`n`, `distribute` parts sum to the amount.  Negative amounts break both
(see the counterexample). -/
theorem allocation_conservation (m : Money) :
    (∀ ratios : List ℚ, 0 ≤ m.amount → ratios ≠ [] → (∀ r ∈ ratios, 0 ≤ r) →
      (ratios.map ratioScaled).sum = jsRound (fl (flSum ratios * 1000)) →
      0 < jsRound (fl (flSum ratios * 1000)) →
      ∃ res, m.allocate ratios = Except.ok res ∧ (res.map Money.amount).sum = m.amount) ∧
    (∀ n : ℤ, 0 < n → 0 ≤ m.amount →
      ∃ parts, m.distribute n = Except.ok parts ∧ (parts.map Money.amount).sum = m.amount) := by
  constructor
  · intro ratios ha hne hnn hsum hT
    have hlen : ¬(ratios.length = 0) := fun h => hne (List.length_eq_zero.mp h)
    have hanyneg : ¬(ratios.any (fun r => decide (r < 0)) = true) := by
      rw [List.any_eq_true]
      rintro ⟨r, hr, hlt⟩
      rw [decide_eq_true_eq] at hlt
      exact absurd hlt (not_lt.mpr (hnn r hr))
    have htot : ¬(flSum ratios = 0) := by
      intro h0
      have hz : jsRound (fl (flSum ratios * 1000)) = 0 := by
        rw [h0, zero_mul, fl_zero, jsRound_zero]
      omega
    have hTne : ¬(jsRound (fl (flSum ratios * 1000)) = 0) := by omega
    -- abbreviations
    set T := jsRound (fl (flSum ratios * 1000)) with hTdef
    set shares := ratios.map (fun r => (m.amount * ratioScaled r).tdiv T) with hshares
    have hmapmap : shares = (ratios.map ratioScaled).map (fun x => (m.amount * x).tdiv T) := by
      rw [hshares, List.map_map]
      rfl
    have hRnn : ∀ x ∈ ratios.map ratioScaled, 0 ≤ x := by
      intro x hx
      obtain ⟨r, hr, hrx⟩ := List.mem_map.mp hx
      rw [← hrx]
      exact ratioScaled_nonneg r (hnn r hr)
    have hRne : ratios.map ratioScaled ≠ [] := by
      intro h
      exact hne (List.map_eq_nil_iff.mp h)
    have hSle : T * shares.sum ≤ m.amount * T := by
      rw [hmapmap]
      have := sum_map_tdiv_le (ratios.map ratioScaled) m.amount T ha hT hRnn
      rw [hsum] at this  -- (map ratioScaled).sum = T
      linarith [this]
    have hSlt : m.amount * T < T * (shares.sum + ratios.length) := by
      rw [hmapmap]
      have := sum_map_tdiv_lt (ratios.map ratioScaled) m.amount T ha hT hRnn hRne
      rw [hsum] at this
      have hlenmap : ((ratios.map ratioScaled).length : ℤ) = (ratios.length : ℤ) := by
        rw [List.length_map]
      rw [hlenmap] at this
      linarith [this]
    have hS_le_a : shares.sum ≤ m.amount := by
      nlinarith [hSle, hT]
    have ha_lt : m.amount < shares.sum + ratios.length := by
      nlinarith [hSlt, hT]
    have hremlt : ¬((ratios.length : ℤ) < m.amount - shares.sum) := by omega
    refine ⟨(addOneToFirst (m.amount - shares.sum).toNat shares).map (fun a => ⟨a, m.currency⟩),
      ?_, ?_⟩
    · rw [Money.allocate]
      simp only [if_neg hlen, if_neg hanyneg, if_neg htot, ← hTdef, if_neg hTne,
        ← hshares, if_neg hremlt]
    · rw [List.map_map]
      have hid : (Money.amount ∘ fun a => Money.mk a m.currency) = id := by
        funext a
        rfl
      rw [hid, List.map_id, addOneToFirst_sum]
      have hlens : shares.length = ratios.length := by rw [hshares, List.length_map]
      have hnn2 : 0 ≤ m.amount - shares.sum := by omega
      have htn : ((m.amount - shares.sum).toNat : ℤ) = m.amount - shares.sum :=
        Int.toNat_of_nonneg hnn2
      have hmin : min (m.amount - shares.sum).toNat shares.length =
          (m.amount - shares.sum).toNat := by
        rw [hlens]
        omega
      rw [hmin]
      omega
  · intro n hn ha
    have hn0 : ¬(n ≤ 0) := not_le.mpr hn
    have hr0 : 0 ≤ m.amount.tmod n := Int.tmod_nonneg n ha
    have hrn : m.amount.tmod n < n := Int.tmod_lt_of_pos m.amount hn
    refine ⟨(addOneToFirst (m.amount.tmod n).toNat
      (List.replicate n.toNat (m.amount.tdiv n))).map (fun a => ⟨a, m.currency⟩), ?_, ?_⟩
    · rw [Money.distribute, if_neg hn0]
    · rw [List.map_map]
      have hid : (Money.amount ∘ fun a => Money.mk a m.currency) = id := by
        funext a
        rfl
      rw [hid, List.map_id, addOneToFirst_sum, List.sum_replicate, List.length_replicate]
      have htn : ((m.amount.tmod n).toNat : ℤ) = m.amount.tmod n := Int.toNat_of_nonneg hr0
      have hmin : min (m.amount.tmod n).toNat n.toNat = (m.amount.tmod n).toNat := by omega
      rw [hmin, htn]
      have hnt : (n.toNat : ℤ) = n := Int.toNat_of_nonneg hn.le
      have hsmul : (n.toNat • (m.amount.tdiv n) : ℤ) = n * m.amount.tdiv n := by
        rw [nsmul_eq_mul, hnt]
      rw [hsmul]
      have := Int.tdiv_add_tmod m.amount n
      omega

/-- C1 (witness): conservation at amount 5 with ratios [1, 2] and at
distribute count 2. -/
theorem allocation_conservation_witness :
    (∃ res, (Money.mk 5 USD).allocate [1, 2] = Except.ok res ∧
      (res.map Money.amount).sum = (Money.mk 5 USD).amount) ∧
    (∃ parts, (Money.mk 5 USD).distribute 2 = Except.ok parts ∧
      (parts.map Money.amount).sum = (Money.mk 5 USD).amount) :=
  ⟨(allocation_conservation (Money.mk 5 USD)).1 [1, 2] (by decide)
      (by decide) (by with_unfolding_all decide) (by with_unfolding_all decide)
      (by with_unfolding_all decide),
    (allocation_conservation (Money.mk 5 USD)).2 2 (by decide) (by decide)⟩

/-- C6 (amended): `allocate` throws `AllocationError` exactly when the list
is empty, an entry is negative, or the float-summed total is zero (which,
for non-negative double entries, coincides with all entries being zero); but
on other valid lists it is not guaranteed to return normally — the only
other outcomes are the `RangeError` of a zero scaled total and the
`TypeError` of an oversized remainder (see the counterexample). -/
theorem allocate_error_classification (m : Money) (ratios : List ℚ) :
    (m.allocate ratios = Except.error DuidErr.allocationError ↔
      (ratios = [] ∨ (∃ r ∈ ratios, r < 0) ∨ flSum ratios = 0)) ∧
    (∀ e, m.allocate ratios = Except.error e →
      e = DuidErr.allocationError ∨ e = DuidErr.rangeError ∨ e = DuidErr.typeError) := by
  rw [Money.allocate]
  dsimp only
  split_ifs with h1 h2 h3 h4 h5
  · refine ⟨iff_of_true rfl (Or.inl (List.length_eq_zero.mp h1)), ?_⟩
    intro e he
    exact Or.inl (Except.error.inj he).symm
  · obtain ⟨r, hr, hlt⟩ := List.any_eq_true.mp h2
    rw [decide_eq_true_eq] at hlt
    refine ⟨iff_of_true rfl (Or.inr (Or.inl ⟨r, hr, hlt⟩)), ?_⟩
    intro e he
    exact Or.inl (Except.error.inj he).symm
  · refine ⟨iff_of_true rfl (Or.inr (Or.inr h3)), ?_⟩
    intro e he
    exact Or.inl (Except.error.inj he).symm
  · constructor
    · constructor
      · intro he
        exact absurd (Except.error.inj he) (by decide)
      · rintro (h | ⟨r, hr, hlt⟩ | h)
        · exact absurd h (fun hh => h1 (by rw [hh]; rfl))
        · exact absurd (List.any_eq_true.mpr ⟨r, hr, decide_eq_true hlt⟩) h2
        · exact absurd h h3
    · intro e he
      exact Or.inr (Or.inl (Except.error.inj he).symm)
  · constructor
    · constructor
      · intro he
        exact absurd (Except.error.inj he) (by decide)
      · rintro (h | ⟨r, hr, hlt⟩ | h)
        · exact absurd h (fun hh => h1 (by rw [hh]; rfl))
        · exact absurd (List.any_eq_true.mpr ⟨r, hr, decide_eq_true hlt⟩) h2
        · exact absurd h h3
    · intro e he
      exact Or.inr (Or.inr (Except.error.inj he).symm)
  · constructor
    · constructor
      · intro he
        exact absurd he (by simp)
      · rintro (h | ⟨r, hr, hlt⟩ | h)
        · exact absurd h (fun hh => h1 (by rw [hh]; rfl))
        · exact absurd (List.any_eq_true.mpr ⟨r, hr, decide_eq_true hlt⟩) h2
        · exact absurd h h3
    · intro e he
      exact absurd he (by simp)

/-- C6 (witness): the classification applied at ratios `[-1]` — a negative
entry yields exactly `AllocationError`. -/
theorem allocate_error_classification_witness :
    (Money.mk 5 USD).allocate [(-1 : ℚ)] = Except.error DuidErr.allocationError :=
  (allocate_error_classification (Money.mk 5 USD) [(-1 : ℚ)]).1.mpr
    (Or.inr (Or.inl ⟨-1, by simp, by norm_num⟩))
/-- Members after a `Map.set` are the new entry or old members. -/
theorem mem_mapSet (m : List (String × ℚ)) (k : String) (v : ℚ) (x : String × ℚ)
    (hx : x ∈ mapSet m k v) : x = (k, v) ∨ x ∈ m := by
  rw [mapSet] at hx
  split_ifs at hx with h
  · obtain ⟨p, hp, hpe⟩ := List.mem_map.mp hx
    by_cases hpk : p.1 = k
    · rw [if_pos hpk] at hpe
      exact Or.inl hpe.symm
    · rw [if_neg hpk] at hpe
      exact Or.inr (hpe ▸ hp)
  · rcases List.mem_append.mp hx with h2 | h2
    · exact Or.inr h2
    · exact Or.inl (List.mem_singleton.mp h2)

/-- A successful `Map.get` comes from some stored entry. -/
theorem mapGet_mem (m : List (String × ℚ)) (c : String) (r : ℚ)
    (h : mapGet m c = some r) : ∃ x ∈ m, x.2 = r := by
  rw [mapGet] at h
  cases hf : m.find? (fun p => decide (p.1 = c)) with
  | none => rw [hf] at h; exact absurd h (by simp)
  | some p =>
    rw [hf] at h
    simp only [Option.map] at h
    exact ⟨p, List.mem_of_find?_eq_some hf, by injection h⟩

/-- Getting the key just set returns the value just set. -/
theorem mapGet_mapSet_self (m : List (String × ℚ)) (k : String) (v : ℚ) :
    mapGet (mapSet m k v) k = some v := by
  rw [mapSet, mapGet]
  split_ifs with h
  · induction m with
    | nil => simp at h
    | cons p t ih =>
      simp only [List.map_cons]
      by_cases hpk : p.1 = k
      · rw [if_pos hpk, List.find?_cons_of_pos _ (by simp)]
        rfl
      · rw [if_neg hpk, List.find?_cons_of_neg _ (by simp [hpk])]
        apply ih
        simp only [List.any_cons, Bool.or_eq_true, decide_eq_true_eq] at h
        rcases h with h | h
        · exact absurd h hpk
        · exact h
  · rw [List.find?_append]
    have hm : m.find? (fun p => decide (p.1 = k)) = none := by
      rw [List.find?_eq_none]
      intro x hxm
      simp only [decide_eq_true_eq]
      intro hxk
      exact h (List.any_eq_true.mpr ⟨x, hxm, decide_eq_true hxk⟩)
    rw [hm]
    simp

/-- Setting a positive value preserves all-positive tables. -/
theorem mapSet_pos (m : List (String × ℚ)) (k : String) (v : ℚ)
    (hm : ∀ x ∈ m, 0 < x.2) (hv : 0 < v) : ∀ x ∈ mapSet m k v, 0 < x.2 := by
  intro x hx
  rcases mem_mapSet m k v x hx with h | h
  · rw [h]
    exact hv
  · exact hm x h

/-- Folding positive entries into a positive table keeps it positive. -/
theorem foldl_mapSet_pos (l : List (String × ℚ)) :
    ∀ acc : List (String × ℚ), (∀ x ∈ acc, 0 < x.2) → (∀ x ∈ l, 0 < x.2) →
      ∀ x ∈ l.foldl (fun acc p => mapSet acc p.1.toUpper p.2) acc, 0 < x.2 := by
  induction l with
  | nil => intro acc hacc _ x hx; exact hacc x hx
  | cons p t ih =>
    intro acc hacc hl x hx
    exact ih (mapSet acc p.1.toUpper p.2)
      (mapSet_pos acc p.1.toUpper p.2 hacc (hl p (List.mem_cons_self p t)))
      (fun y hy => hl y (List.mem_cons_of_mem p hy)) x hx

/-- The constructor yields an all-positive table from all-positive input
rates (the injected base rate is 1). -/
theorem construct_pos (base : String) (rates : List (String × ℚ))
    (h : ∀ x ∈ rates, 0 < x.2) :
    ∀ x ∈ (ExchangeRateProvider.construct base rates).rates, 0 < x.2 := by
  rw [ExchangeRateProvider.construct]
  exact mapSet_pos _ _ _ (foldl_mapSet_pos rates [] (by simp) h) one_pos

/-- A successful `updateRate` preserves all-positive tables. -/
theorem updateRate_pos (p : ExchangeRateProvider) (c : String) (r : ℚ)
    (p2 : ExchangeRateProvider) (hp : ∀ x ∈ p.rates, 0 < x.2)
    (h : p.updateRate c r = Except.ok p2) : ∀ x ∈ p2.rates, 0 < x.2 := by
  rw [ExchangeRateProvider.updateRate] at h
  split_ifs at h with hr
  have heq := Except.ok.inj h
  subst heq
  exact mapSet_pos _ _ _ hp (not_le.mp hr)

/-- Batch updates (even ones that throw midway) preserve all-positive
tables. -/
theorem updateRates_pos (l : List (String × ℚ)) :
    ∀ p : ExchangeRateProvider, (∀ x ∈ p.rates, 0 < x.2) →
      ∀ x ∈ (p.updateRates l).1.rates, 0 < x.2 := by
  induction l with
  | nil => intro p hp x hx; exact hp x hx
  | cons pr t ih =>
    intro p hp
    obtain ⟨c, r⟩ := pr
    rw [ExchangeRateProvider.updateRates]
    cases hu : p.updateRate c r with
    | error e =>
      simp only [hu]
      exact hp
    | ok p2 =>
      simp only [hu]
      exact ih p2 (updateRate_pos p c r p2 hp hu)

/-- A successful rebase preserves all-positive tables: positive rates
divided by the positive old base rate stay positive. -/
theorem withBase_pos (p : ExchangeRateProvider) (nb : String) (p2 : ExchangeRateProvider)
    (hp : ∀ x ∈ p.rates, 0 < x.2)
    (h : p.withBaseCurrency nb = Except.ok p2) : ∀ x ∈ p2.rates, 0 < x.2 := by
  rw [ExchangeRateProvider.withBaseCurrency] at h
  cases hg : mapGet p.rates nb.toUpper with
  | none => rw [hg] at h; exact absurd h (by simp)
  | some baseRate =>
    rw [hg] at h
    have hbr : 0 < baseRate := by
      obtain ⟨x, hx, hxe⟩ := mapGet_mem _ _ _ hg
      rw [← hxe]
      exact hp x hx
    have heq := Except.ok.inj h
    subst heq
    apply construct_pos
    intro x hx
    obtain ⟨q, hq, hqe⟩ := List.mem_map.mp hx
    rw [← hqe]
    exact div_pos (hp q (List.mem_of_mem_filter hq)) hbr

/-- Reachability invariant: every state reachable from a validated
construction stores only positive rates. -/
theorem reached_pos (p : ExchangeRateProvider) (h : ReachedERP p) :
    ∀ x ∈ p.rates, 0 < x.2 := by
  induction h with
  | construct base rates hr => exact construct_pos base rates hr
  | update p c r p2 hp hok ih => exact updateRate_pos p c r p2 ih hok
  | updates p l hp ih => exact updateRates_pos l p ih
  | rebase p nb p2 hp hok ih => exact withBase_pos p nb p2 ih hok

/-- C7 (amended): when the constructor's input rates are all strictly
positive, every reachable provider state stores only strictly positive
rates (finiteness is inherent to the `ℚ` embedding); the base currency maps
to 1.0 immediately after construction and immediately after a successful
`withBaseCurrency` — though the unvalidated constructor admits arbitrary
input rates and `updateRate` on the base code can overwrite the 1.0 (see the
counterexample). -/
theorem exchange_rate_positivity :
    (∀ p, ReachedERP p → ∀ c r, mapGet p.rates c = some r → 0 < r) ∧
    (∀ (base : String) (rates : List (String × ℚ)),
      mapGet (ExchangeRateProvider.construct base rates).rates
        (ExchangeRateProvider.construct base rates).baseCurrency = some 1) ∧
    (∀ (p : ExchangeRateProvider) (nb : String) (p2 : ExchangeRateProvider),
      p.withBaseCurrency nb = Except.ok p2 →
      mapGet p2.rates p2.baseCurrency = some 1) := by
  refine ⟨?_, ?_, ?_⟩
  · intro p hp c r hget
    obtain ⟨x, hx, hxe⟩ := mapGet_mem _ _ _ hget
    rw [← hxe]
    exact reached_pos p hp x hx
  · intro base rates
    rw [ExchangeRateProvider.construct]
    exact mapGet_mapSet_self _ _ _
  · intro p nb p2 h
    rw [ExchangeRateProvider.withBaseCurrency] at h
    cases hg : mapGet p.rates nb.toUpper with
    | none => rw [hg] at h; exact absurd h (by simp)
    | some baseRate =>
      rw [hg] at h
      have heq := Except.ok.inj h
      subst heq
      rw [ExchangeRateProvider.construct]
      exact mapGet_mapSet_self _ _ _

/-- C7 (witness): positivity of a concretely stored rate in a concretely
reached state, and base ↦ 1 after a concrete construction. -/
theorem exchange_rate_positivity_witness :
    (0 : ℚ) < 2 ∧
    mapGet (ExchangeRateProvider.construct ("usd") [("eur", 2)]).rates
      (ExchangeRateProvider.construct ("usd") [("eur", 2)]).baseCurrency = some 1 :=
  ⟨exchange_rate_positivity.1 _
      (ReachedERP.construct ("usd") [("eur", 2)] (by intro x hx; rw [List.mem_singleton.mp hx]; norm_num))
      ("EUR") 2 (by with_unfolding_all decide),
    exchange_rate_positivity.2.1 ("usd") [("eur", 2)]⟩

/-- C7 (counterexample): the constructor performs no validation, so a
negative input rate is stored as-is; and `updateRate` on the base currency
overwrites its 1.0 mapping.  Both reachable states violate the claimed
invariant. -/
theorem exchange_rate_invariant_violations :
    mapGet (ExchangeRateProvider.construct ("USD") [("EUR", -1)]).rates ("EUR") = some (-1) ∧
    ¬(0 : ℚ) < -1 ∧
    ((ExchangeRateProvider.construct ("USD") [("EUR", 2)]).updateRate ("USD") 3).toOption.map
      (fun p => mapGet p.rates p.baseCurrency) = some (some 3) ∧
    some (some (3 : ℚ)) ≠ some (some 1) := by
  refine ⟨by with_unfolding_all decide, by norm_num, by with_unfolding_all decide,
    by with_unfolding_all decide⟩
